import Mathlib

/-!
# The callback lesson of the native-addon tutorial

A shallow embedding of `examples/lesson03-callbacks/callback.cpp`:
`SleepCallback`, `SleepAsync`, `SleepAsyncComplete` and `SleepCallbackAsync`,
the `WorkInfo` descriptor they share, and a small model of the libuv work
queue that `uv_queue_work` feeds.

Conventions of the embedding.

* A JavaScript value is a `JsValue`; only what `IsUint32`, `IsFunction` and
  `ToUint32` look at is kept.
* The C++ free store is a `Heap`: the list of the `WorkInfo` objects created by
  `new WorkInfo()`, the address of an object being its position.  The source
  has no `delete`, so the list only grows.
* A function of the addon returns the list of its observable effects
  (exceptions thrown, objects created, handles reset, work queued, sleeps,
  JavaScript calls) and, where it touches the free store, the new heap.
* `uint32_t` arithmetic is `Nat` arithmetic reduced modulo `2 ^ 32`.
-/

namespace node_cpp_tutorial

/-! ## Values of the JavaScript engine -/

/-- JavaScript values, as far as the addon inspects them.  `int z` is a Number
whose value is the integer `z` (and not `-0`); `double` stands for every other
Number (fractions, NaN, the infinities, `-0`). -/
inductive JsValue where
  | undefined : JsValue
  | null : JsValue
  | boolean (b : Bool) : JsValue
  | int (z : Int) : JsValue
  | double : JsValue
  | string (s : String) : JsValue
  | function (id : Nat) : JsValue
  | object (id : Nat) : JsValue
  deriving DecidableEq

/-- The test `v8::Value::IsUint32`: a Number that is an integer of `[0, 2^32)`. -/
def IsUint32 : JsValue → Bool
  | .int z => decide (0 ≤ z) && decide (z < 2 ^ 32)
  | _ => false

/-- The test `v8::Value::IsFunction`. -/
def IsFunction : JsValue → Bool
  | .function _ => true
  | _ => false

/-- The value `v->ToUint32(context).ToLocalChecked()->Value()`.  The addon applies it only
behind the `IsUint32` guard, where it is the value itself; for an integral
Number it is the value modulo `2 ^ 32`, `true` is `1`, and the conversions the
addon never reaches are not detailed (`0`). -/
def Uint32Value : JsValue → Nat
  | .int z => (z % 2 ^ 32).toNat
  | .boolean true => 1
  | _ => 0

/-- The argument `args[i]` of a `FunctionCallbackInfo`: `undefined` past the last argument. -/
def argAt (args : List JsValue) (i : Nat) : JsValue :=
  args.getD i .undefined

/-! ## Effects -/

/-- The `#ifdef _WIN32` switch of the source. -/
inductive Platform where
  | win32 : Platform
  | posix : Platform
  deriving DecidableEq

/-- The functions that the addon defines, as they can be named where a function
pointer is expected. -/
inductive NativeFn where
  | SleepCallback : NativeFn
  | SleepAsync : NativeFn
  | SleepAsyncComplete : NativeFn
  | SleepCallbackAsync : NativeFn
  deriving DecidableEq

/-- Observable effects of the addon's functions. -/
inductive Effect where
  /-- The statement `isolate->ThrowException(Exception::Error(msg))` -/
  | throwError (msg : String) : Effect
  /-- The statement `isolate->ThrowException(Exception::TypeError(msg))` -/
  | throwTypeError (msg : String) : Effect
  /-- The expression `new WorkInfo()`, giving the object at address `addr` -/
  | newWorkInfo (addr : Nat) : Effect
  /-- The statement `info->jsCallback.Reset(isolate, callback)` on the object at `addr` -/
  | persistentReset (addr : Nat) (callback : JsValue) : Effect
  /-- The call `uv_queue_work(uv_default_loop(), req, work, afterWork)` -/
  | queueWork (req : Nat) (work : NativeFn) (afterWork : NativeFn) : Effect
  /-- The call `usleep(usec)` -/
  | usleep (usec : Nat) : Effect
  /-- The call `Sleep(ms)` of the Windows API -/
  | Sleep (ms : Nat) : Effect
  /-- The call `callee->Call(context, recv, argc, nullptr)` -/
  | call (callee : JsValue) (recv : JsValue) (argc : Nat) : Effect
  deriving DecidableEq

/-- The effect is a blocking sleep. -/
def Effect.isSleep : Effect → Bool
  | .usleep _ => true
  | .Sleep _ => true
  | _ => false

/-- The effect is an invocation of a JavaScript function. -/
def Effect.isCall : Effect → Bool
  | .call _ _ _ => true
  | _ => false

/-- The effect is a thrown exception. -/
def Effect.isThrow : Effect → Bool
  | .throwError _ => true
  | .throwTypeError _ => true
  | _ => false

/-- The effect creates a descriptor. -/
def Effect.isNew : Effect → Bool
  | .newWorkInfo _ => true
  | _ => false

/-- The effect queues a work request. -/
def Effect.isQueueWork : Effect → Bool
  | .queueWork _ _ _ => true
  | _ => false

/-- The message of the Error thrown for a missing argument. -/
def msgArgCount : String := "You must pass in the sleep time and a callback function."

/-- The message of the TypeError thrown for the first argument. -/
def msgFirstArg : String := "Your first argument must be an integer."

/-- The message of the TypeError thrown for the second argument. -/
def msgSecondArg : String := "Your second argument must be a callback function."

/-- The sleep of `sleepTime` milliseconds as the source writes it:
`Sleep(sleepTime)` under `_WIN32`, `usleep(sleepTime * 1000)` otherwise, the
product being a `uint32_t` product. -/
def blockingSleep (p : Platform) (sleepTime : Nat) : Effect :=
  match p with
  | .win32 => .Sleep sleepTime
  | .posix => .usleep (sleepTime * 1000 % 2 ^ 32)

/-! ## The descriptor and the free store -/

/-- The libuv work request; `data` is its `void*` field, `none` the null
pointer, `some a` the address of a `WorkInfo`. -/
structure uv_work_t where
  data : Option Nat
  deriving DecidableEq

/-- The work descriptor of the source. `jsCallback` is the
`Persistent<Function>` handle, `none` when the handle is empty. -/
structure WorkInfo where
  request : uv_work_t
  sleepTime : Nat
  jsCallback : Option JsValue
  deriving DecidableEq

/-- The free store: the `WorkInfo` objects created so far, by address. -/
abbrev Heap := List WorkInfo

/-- The addresses of the live descriptors. -/
def liveDescriptors (heap : Heap) : List Nat :=
  List.range heap.length

/-- The cast `static_cast<WorkInfo*>(request->data)` followed by the dereference: the
request at address `req` is the `request` member of the descriptor at `req`
(its first member), and `data` names the descriptor to use.  `none` when a
pointer on the way is null or dangling. -/
def workInfoOf (heap : Heap) (req : Nat) : Option WorkInfo :=
  match heap[req]? with
  | none => none
  | some owner =>
    match owner.request.data with
    | none => none
    | some a => heap[a]?

/-! ## The functions of the addon -/

/-- The function `SleepCallback`, the synchronous variant. -/
def SleepCallback (p : Platform) (args : List JsValue) : List Effect :=
  if args.length < 2 then
    [.throwError msgArgCount]
  else if !IsUint32 (argAt args 0) then
    [.throwTypeError msgFirstArg]
  else if !IsFunction (argAt args 1) then
    [.throwTypeError msgSecondArg]
  else
    let sleepTime := Uint32Value (argAt args 0)
    let callback := argAt args 1
    [blockingSleep p sleepTime, .call callback .null 0]

/-- The function `SleepAsync`, the work callback: `none` if the request does not lead to a
descriptor. -/
def SleepAsync (p : Platform) (heap : Heap) (request : Nat) :
    Option (List Effect × Heap) :=
  match workInfoOf heap request with
  | none => none
  | some info => some ([blockingSleep p info.sleepTime], heap)

/-- The function `SleepAsyncComplete`, the after-work callback.  `status` is received and
not looked at.  `none` if the request does not lead to a descriptor or the
handle is empty (the source dereferences it). -/
def SleepAsyncComplete (heap : Heap) (request : Nat) (_status : Int) :
    Option (List Effect × Heap) :=
  match workInfoOf heap request with
  | none => none
  | some info =>
    match info.jsCallback with
    | none => none
    | some callback => some ([.call callback .null 0], heap)

/-- The function `SleepCallbackAsync`. -/
def SleepCallbackAsync (heap : Heap) (args : List JsValue) : List Effect × Heap :=
  if args.length < 2 then
    ([.throwError msgArgCount], heap)
  else if !IsUint32 (argAt args 0) then
    ([.throwTypeError msgFirstArg], heap)
  else if !IsFunction (argAt args 1) then
    ([.throwTypeError msgSecondArg], heap)
  else
    let info := heap.length
    let w0 : WorkInfo := { request := { data := none }, sleepTime := 0, jsCallback := none }
    let w1 : WorkInfo := { w0 with sleepTime := Uint32Value (argAt args 0) }
    let w2 : WorkInfo := { w1 with request := { data := some info } }
    let callback := argAt args 1
    let w3 : WorkInfo := { w2 with jsCallback := some callback }
    ([.newWorkInfo info, .persistentReset info callback,
      .queueWork info .SleepAsync .SleepAsyncComplete], heap ++ [w3])

/-! ## The libuv work queue

`uv_queue_work(loop, req, work_cb, after_work_cb)` puts `req` on the queue of
the loop.  A thread of the pool takes a queued request and runs
`work_cb(req)`; once that call has returned, the loop thread runs
`after_work_cb(req, 0)`.  Each of the two runs once per request.  The requests
of the queue advance independently of one another, and JavaScript may call the
addon between any two of these steps. -/

/-- Where a queued request stands. -/
inductive Phase where
  | queued : Phase
  | running : Phase
  | workDone : Phase
  | dispatched : Phase
  deriving DecidableEq

/-- The number of events a request in this phase has behind it. -/
def Phase.progress : Phase → Nat
  | .queued => 1
  | .running => 2
  | .workDone => 3
  | .dispatched => 4

/-- An entry of the work queue. -/
structure Work where
  req : Nat
  work_cb : NativeFn
  after_work_cb : NativeFn
  phase : Phase
  deriving DecidableEq

/-- What is recorded about a request, in the order it happens. -/
inductive Event where
  /-- The request was handed to `uv_queue_work` by a call of
  `SleepCallbackAsync`, which performed `effects` in all. -/
  | submitted (req : Nat) (effects : List Effect) : Event
  /-- A pool thread entered `work_cb(req)`, which performs `effects`. -/
  | workStarted (req : Nat) (effects : List Effect) : Event
  /-- The call `work_cb(req)` returned. -/
  | workFinished (req : Nat) : Event
  /-- The loop thread ran `after_work_cb(req, status)`, which performed `effects`. -/
  | afterWork (req : Nat) (effects : List Effect) : Event
  deriving DecidableEq

/-- The request an event is about. -/
def Event.req : Event → Nat
  | .submitted r _ => r
  | .workStarted r _ => r
  | .workFinished r => r
  | .afterWork r _ => r

/-- The effects performed inside an event. -/
def Event.effects : Event → List Effect
  | .submitted _ effs => effs
  | .workStarted _ effs => effs
  | .workFinished _ => []
  | .afterWork _ effs => effs

/-- The state of the process: free store, work queue, the effects performed on
the host (loop) thread so far, and the record of the events of the requests. -/
structure State where
  heap : Heap
  queue : List Work
  host : List Effect
  trace : List Event

/-- The process before the first call. -/
def State.init : State :=
  { heap := [], queue := [], host := [], trace := [] }

/-- The queue entries that the `uv_queue_work` calls among `effs` create. -/
def enqueued : List Effect → List Work
  | [] => []
  | .queueWork r w a :: effs =>
    { req := r, work_cb := w, after_work_cb := a, phase := .queued } :: enqueued effs
  | _ :: effs => enqueued effs

/-- Running the function registered as work callback on a request: of the
functions of the addon only `SleepAsync` takes a request and nothing else;
`none` for any other. -/
def runWork : NativeFn → Platform → Heap → Nat → Option (List Effect × Heap)
  | .SleepAsync, p, heap, req => SleepAsync p heap req
  | _, _, _, _ => none

/-- Running the function registered as after-work callback on a request and a
status: of the functions of the addon only `SleepAsyncComplete` takes these;
`none` for any other. -/
def runAfterWork : NativeFn → Heap → Nat → Int → Option (List Effect × Heap)
  | .SleepAsyncComplete, heap, req, status => SleepAsyncComplete heap req status
  | _, _, _, _ => none

/-- What can happen next. -/
inductive Action where
  /-- JavaScript calls `sleepCallbackAsync(...args)` on the host thread. -/
  | jsCall (args : List JsValue) : Action
  /-- A pool thread takes entry `i` of the queue and enters its work callback. -/
  | startWork (i : Nat) : Action
  /-- The work callback of entry `i` returns. -/
  | finishWork (i : Nat) : Action
  /-- The loop thread runs the after-work callback of entry `i`. -/
  | dispatch (i : Nat) : Action
  deriving DecidableEq

/-- The action belongs to the event loop (it is not a call from JavaScript). -/
def Action.isLoop : Action → Bool
  | .jsCall _ => false
  | _ => true

/-- One step of the process; `none` when the action is not enabled in `s`, or
when a callback faults. -/
def step (p : Platform) (s : State) : Action → Option State
  | .jsCall args =>
    let r := SleepCallbackAsync s.heap args
    let q := enqueued r.1
    some { heap := r.2, queue := s.queue ++ q, host := s.host ++ r.1,
           trace := s.trace ++ q.map (fun w => Event.submitted w.req r.1) }
  | .startWork i =>
    match s.queue[i]? with
    | none => none
    | some w =>
      if w.phase = .queued then
        match runWork w.work_cb p s.heap w.req with
        | none => none
        | some r =>
          some { heap := r.2, queue := s.queue.set i { w with phase := .running },
                 host := s.host, trace := s.trace ++ [.workStarted w.req r.1] }
      else none
  | .finishWork i =>
    match s.queue[i]? with
    | none => none
    | some w =>
      if w.phase = .running then
        some { heap := s.heap, queue := s.queue.set i { w with phase := .workDone },
               host := s.host, trace := s.trace ++ [.workFinished w.req] }
      else none
  | .dispatch i =>
    match s.queue[i]? with
    | none => none
    | some w =>
      if w.phase = .workDone then
        match runAfterWork w.after_work_cb s.heap w.req 0 with
        | none => none
        | some r =>
          some { heap := r.2, queue := s.queue.set i { w with phase := .dispatched },
                 host := s.host ++ r.1, trace := s.trace ++ [.afterWork w.req r.1] }
      else none

/-- A run of the process: the actions one after the other. -/
def run (p : Platform) : State → List Action → Option State
  | s, [] => some s
  | s, a :: acts =>
    match step p s a with
    | none => none
    | some s1 => run p s1 acts

/-- The events of the trace that are about request `r`, in order. -/
def eventsOf (r : Nat) (trace : List Event) : List Event :=
  trace.filter (fun e => decide (e.req = r))

/-- The number of JavaScript calls made for request `r`. -/
def invocations (r : Nat) (trace : List Event) : Nat :=
  ((eventsOf r trace).map (fun e => e.effects.countP Effect.isCall)).sum

/-- No action of the loop is enabled: the process is at rest. -/
def quiescent (p : Platform) (s : State) : Prop :=
  ∀ i, step p s (.startWork i) = none ∧ step p s (.finishWork i) = none ∧
    step p s (.dispatch i) = none

/-! ## Vocabulary of the statements -/

/-- The argument list passes the three checks of the addon. -/
def validArgs (args : List JsValue) : Bool :=
  decide (2 ≤ args.length) && IsUint32 (argAt args 0) && IsFunction (argAt args 1)

/-- The descriptor that a valid call with `args` leaves at address `addr`. -/
def descriptorFor (addr : Nat) (args : List JsValue) : WorkInfo :=
  { request := { data := some addr }, sleepTime := Uint32Value (argAt args 0),
    jsCallback := some (argAt args 1) }

/-- The argument lists of the valid calls among `acts`, in order. -/
def validCalls : List Action → List (List JsValue)
  | [] => []
  | .jsCall args :: acts => if validArgs args then args :: validCalls acts else validCalls acts
  | _ :: acts => validCalls acts

/-- The whole history of the request of a valid call with `args` whose
descriptor is at `i`, with the effects of every function run for it: the
submitting call, the work callback, the after-work callback. -/
def fullHistory (p : Platform) (i : Nat) (args : List JsValue) : List Event :=
  [.submitted i [.newWorkInfo i, .persistentReset i (argAt args 1),
                 .queueWork i .SleepAsync .SleepAsyncComplete],
   .workStarted i [blockingSleep p (Uint32Value (argAt args 0))],
   .workFinished i,
   .afterWork i [.call (argAt args 1) .null 0]]

/-- The phase of entry `i` of the queue. -/
def phaseOf (s : State) (i : Nat) : Option Phase :=
  (s.queue[i]?).map Work.phase

/-- The phase that follows. -/
def Phase.next : Phase → Phase
  | .queued => .running
  | .running => .workDone
  | .workDone => .dispatched
  | .dispatched => .dispatched

/-- The event that takes a request of the valid call `args` out of phase `ph`. -/
def nextEvent (p : Platform) (i : Nat) (args : List JsValue) : Phase → Event
  | .queued => .workStarted i [blockingSleep p (Uint32Value (argAt args 0))]
  | .running => .workFinished i
  | _ => .afterWork i [.call (argAt args 1) .null 0]

/-- The effects of the after-work runs recorded in a trace, in order. -/
def afterWorkEffects : List Event → List Effect
  | [] => []
  | .afterWork _ effs :: t => effs ++ afterWorkEffects t
  | _ :: t => afterWorkEffects t

/-- The entry has been dispatched. -/
def Work.isDispatched (w : Work) : Bool :=
  decide (w.phase = .dispatched)

/-- What holds of every state the process can reach, `subs` being the argument
lists of the valid calls made so far: descriptor `i` and queue entry `i` are
those of the `i`-th valid call, the events recorded about request `i` are
the first events of its history, as many as its phase says, and the calls of
JavaScript functions made on the host thread are those of the after-work runs,
one per dispatched entry. -/
structure Inv (p : Platform) (s : State) (subs : List (List JsValue)) : Prop where
  heap_len : s.heap.length = subs.length
  queue_len : s.queue.length = subs.length
  tags : ∀ e ∈ s.trace, e.req < subs.length
  host_order : s.host.filter Effect.isCall = afterWorkEffects s.trace
  host_calls : s.host.countP Effect.isCall = s.queue.countP Work.isDispatched
  task : ∀ i args, subs[i]? = some args →
    validArgs args = true ∧ s.heap[i]? = some (descriptorFor i args) ∧
    ∃ ph, s.queue[i]? = some ⟨i, .SleepAsync, .SleepAsyncComplete, ph⟩ ∧
      eventsOf i s.trace = (fullHistory p i args).take ph.progress

/-- The action of the loop that takes entry `i` out of phase `ph`. -/
def Phase.action : Phase → Nat → Action
  | .queued, i => .startWork i
  | .running, i => .finishWork i
  | _, i => .dispatch i

/-- The state after entry `i`, of the valid call `args`, has left phase `ph`. -/
def advance (p : Platform) (s : State) (i : Nat) (args : List JsValue) (ph : Phase) : State :=
  { heap := s.heap,
    queue := s.queue.set i ⟨i, .SleepAsync, .SleepAsyncComplete, ph.next⟩,
    host := s.host ++ (nextEvent p i args ph).effects.filter Effect.isCall,
    trace := s.trace ++ [nextEvent p i args ph] }

/-- The requests in the order they were submitted. -/
def submissionOrder : List Event → List Nat
  | [] => []
  | .submitted r _ :: t => r :: submissionOrder t
  | _ :: t => submissionOrder t

/-- The requests in the order their after-work callback ran. -/
def completionOrder : List Event → List Nat
  | [] => []
  | .afterWork r _ :: t => r :: completionOrder t
  | _ :: t => completionOrder t

/-- A run with three calls, one of them rejected: 50 ms with callback 1, then
10 ms with callback 2; the second request is completed first, the first one
is left sleeping. -/
def demoActs : List Action :=
  [.jsCall [.int 50, .function 1], .jsCall [.int 10, .function 2], .jsCall [.string "soon"],
   .startWork 1, .startWork 0, .finishWork 1, .dispatch 1]

/-- The state `demoActs` leads to. -/
def demoState : State :=
  (run .posix State.init demoActs).getD State.init

/-- The run `demoActs` continued until the first request is completed too. -/
def demoActsDone : List Action :=
  demoActs ++ [.finishWork 0, .dispatch 0]

/-- The state `demoActsDone` leads to. -/
def demoStateDone : State :=
  (run .posix State.init demoActsDone).getD State.init

/-- A run of two calls in which the request submitted second is completed
first. -/
def reorderActs : List Action :=
  [.jsCall [.int 50, .function 1], .jsCall [.int 10, .function 2],
   .startWork 0, .startWork 1, .finishWork 1, .dispatch 1, .finishWork 0, .dispatch 0]

/-- The state `reorderActs` leads to. -/
def reorderState (p : Platform) : State :=
  (run p State.init reorderActs).getD State.init

/-- One call, `sleepCallbackAsync(5, f1)`, run to its end. -/
def oneTaskActs : List Action :=
  [.jsCall [.int 5, .function 1], .startWork 0, .finishWork 0, .dispatch 0]

/-- The state `oneTaskActs` leads to. -/
def oneTaskState : State :=
  (run .posix State.init oneTaskActs).getD State.init

/-- Two calls in flight at once, the second asking for 4294968 ms. -/
def longSleepActs : List Action :=
  [.jsCall [.int 50, .function 1], .jsCall [.int 4294968, .function 2]]

/-- The state `longSleepActs` leads to. -/
def longSleepState : State :=
  (run .posix State.init longSleepActs).getD State.init

/-! ## Basic facts about the functions -/

theorem SleepCallbackAsync_valid (heap : Heap) (args : List JsValue)
    (h : validArgs args = true) :
    SleepCallbackAsync heap args =
      ([.newWorkInfo heap.length, .persistentReset heap.length (argAt args 1),
        .queueWork heap.length .SleepAsync .SleepAsyncComplete],
       heap ++ [descriptorFor heap.length args]) := by
  simp only [validArgs, Bool.and_eq_true, decide_eq_true_eq] at h
  obtain ⟨⟨h1, h2⟩, h3⟩ := h
  have h1n : ¬ args.length < 2 := by omega
  simp [SleepCallbackAsync, h1n, h2, h3, descriptorFor]

theorem SleepCallbackAsync_invalid (heap : Heap) (args : List JsValue)
    (h : validArgs args = false) :
    SleepCallbackAsync heap args =
      ([if args.length < 2 then .throwError msgArgCount
        else if IsUint32 (argAt args 0) = false then .throwTypeError msgFirstArg
        else .throwTypeError msgSecondArg], heap) := by
  unfold SleepCallbackAsync
  by_cases h1 : args.length < 2
  · simp [h1]
  · by_cases h2 : IsUint32 (argAt args 0) = true
    · by_cases h3 : IsFunction (argAt args 1) = true
      · have : validArgs args = true := by
          simp only [validArgs, Bool.and_eq_true, decide_eq_true_eq]
          exact ⟨⟨by omega, h2⟩, h3⟩
        rw [this] at h
        cases h
      · simp [h1, h2, h3]
    · simp [h1, h2]

theorem workInfoOf_self (heap : Heap) (i : Nat) (w : WorkInfo)
    (h : heap[i]? = some w) (hd : w.request.data = some i) :
    workInfoOf heap i = some w := by
  simp [workInfoOf, h, hd]

theorem eventsOf_append (r : Nat) (t1 t2 : List Event) :
    eventsOf r (t1 ++ t2) = eventsOf r t1 ++ eventsOf r t2 := by
  simp [eventsOf]

theorem eventsOf_fresh (r : Nat) (n : Nat) (t : List Event)
    (h : ∀ e ∈ t, e.req < n) (hr : n ≤ r) : eventsOf r t = [] := by
  simp only [eventsOf, List.filter_eq_nil_iff, decide_eq_true_eq]
  intro e he heq
  have := h e he
  omega

theorem validCalls_cons (a : Action) (acts : List Action) :
    validCalls (a :: acts) = validCalls [a] ++ validCalls acts := by
  cases a with
  | jsCall args =>
    by_cases h : validArgs args = true <;> simp [validCalls, h]
  | startWork i => simp [validCalls]
  | finishWork i => simp [validCalls]
  | dispatch i => simp [validCalls]

theorem validCalls_append (as bs : List Action) :
    validCalls (as ++ bs) = validCalls as ++ validCalls bs := by
  induction as with
  | nil => simp [validCalls]
  | cons a as ih =>
    rw [List.cons_append, validCalls_cons, ih, validCalls_cons a as, List.append_assoc]

theorem validCalls_loop (acts : List Action) (h : ∀ a ∈ acts, a.isLoop = true) :
    validCalls acts = [] := by
  induction acts with
  | nil => rfl
  | cons a as ih =>
    have ha := h a (by simp)
    have has := ih (fun b hb => h b (by simp [hb]))
    cases a with
    | jsCall args => simp [Action.isLoop] at ha
    | startWork i => simpa [validCalls] using has
    | finishWork i => simpa [validCalls] using has
    | dispatch i => simpa [validCalls] using has

theorem run_append (p : Platform) (s : State) (as bs : List Action) :
    run p s (as ++ bs) = (run p s as).bind (fun s1 => run p s1 bs) := by
  induction as generalizing s with
  | nil => simp [run]
  | cons a as ih =>
    simp only [List.cons_append, run]
    cases step p s a with
    | none => simp
    | some s1 => simpa using ih s1

/-! ## The invariant of the process -/

theorem afterWorkEffects_append (t1 t2 : List Event) :
    afterWorkEffects (t1 ++ t2) = afterWorkEffects t1 ++ afterWorkEffects t2 := by
  induction t1 with
  | nil => rfl
  | cons e t ih =>
    cases e <;> simp [afterWorkEffects, ih]

/-- Replacing an entry of a list changes the count of a property by what the
old and the new entry contribute. -/
theorem countP_set_balance {α : Type} (q : α → Bool) (l : List α) (i : Nat) (a b : α)
    (h : l[i]? = some a) :
    (l.set i b).countP q + (if q a = true then 1 else 0) =
      l.countP q + (if q b = true then 1 else 0) := by
  induction l generalizing i with
  | nil => simp at h
  | cons x xs ih =>
    cases i with
    | zero =>
      simp only [List.getElem?_cons_zero, Option.some.injEq] at h
      subst h
      simp only [List.set_cons_zero, List.countP_cons]
      omega
    | succ n =>
      simp only [List.getElem?_cons_succ] at h
      have := ih n h
      simp only [List.set_cons_succ, List.countP_cons]
      omega

theorem inv_init (p : Platform) : Inv p State.init [] := by
  constructor <;> simp [State.init, afterWorkEffects]

theorem history_take_succ (p : Platform) (i : Nat) (args : List JsValue) (ph : Phase)
    (h : ph ≠ .dispatched) :
    (fullHistory p i args).take ph.next.progress =
      (fullHistory p i args).take ph.progress ++
        [nextEvent p i args ph] := by
  cases ph <;> simp [fullHistory, Phase.next, Phase.progress, nextEvent] at h ⊢

theorem inv_jsCall (p : Platform) (s : State) (subs : List (List JsValue))
    (args : List JsValue) (hinv : Inv p s subs) (s1 : State)
    (hs : step p s (.jsCall args) = some s1) :
    Inv p s1 (subs ++ validCalls [.jsCall args]) := by
  simp only [step, Option.some.injEq] at hs
  subst hs
  by_cases hv : validArgs args = true
  · have hq : enqueued (SleepCallbackAsync s.heap args).1 =
        [⟨s.heap.length, .SleepAsync, .SleepAsyncComplete, .queued⟩] := by
      rw [SleepCallbackAsync_valid s.heap args hv]; rfl
    have hh : (SleepCallbackAsync s.heap args).2 =
        s.heap ++ [descriptorFor s.heap.length args] := by
      rw [SleepCallbackAsync_valid s.heap args hv]
    have he1 : (SleepCallbackAsync s.heap args).1 =
        [.newWorkInfo s.heap.length, .persistentReset s.heap.length (argAt args 1),
         .queueWork s.heap.length .SleepAsync .SleepAsyncComplete] := by
      rw [SleepCallbackAsync_valid s.heap args hv]
    have hl := hinv.heap_len
    have hql := hinv.queue_len
    constructor
    · simp [hh, validCalls, hv, hl]
    · simp [hq, validCalls, hv, hql]
    · intro e he
      simp only [hq, List.map_cons, List.map_nil, List.mem_append, List.mem_singleton] at he
      simp only [validCalls, hv, if_true, List.length_append, List.length_singleton]
      rcases he with he | he
      · have := hinv.tags e he
        omega
      · subst he
        simp [Event.req, hl]
    · show (s.host ++ _).filter Effect.isCall = afterWorkEffects (s.trace ++ _)
      rw [afterWorkEffects_append, List.filter_append, hinv.host_order, hq, he1]
      simp [afterWorkEffects, Effect.isCall]
    · show (s.host ++ _).countP Effect.isCall = (s.queue ++ _).countP Work.isDispatched
      rw [List.countP_append, List.countP_append, hinv.host_calls, hq, he1]
      simp [Effect.isCall, Work.isDispatched]
    · intro i a hi
      simp only [validCalls, hv, if_true] at hi
      by_cases hlt : i < subs.length
      · rw [List.getElem?_append_left hlt] at hi
        obtain ⟨h1, h2, ph, h3, h4⟩ := hinv.task i a hi
        refine ⟨h1, ?_, ph, ?_, ?_⟩
        · rw [hh, List.getElem?_append_left (by omega)]; exact h2
        · show (s.queue ++ _)[i]? = _
          rw [List.getElem?_append_left (by omega)]; exact h3
        · show eventsOf i (s.trace ++ _) = _
          rw [eventsOf_append, h4, hq]
          have : ∀ effs, eventsOf i [Event.submitted s.heap.length effs] = [] := by
            intro effs
            simp only [eventsOf, List.filter_eq_nil_iff, decide_eq_true_eq, List.mem_singleton]
            intro e he
            subst he
            simp only [Event.req]
            omega
          simp [this]
      · have hge : subs.length ≤ i := by omega
        rw [List.getElem?_append_right hge] at hi
        have hi0 : i - subs.length = 0 := by
          by_contra hne
          have : [args][i - subs.length]? = none := by
            apply List.getElem?_eq_none
            simp only [List.length_singleton]
            omega
          rw [this] at hi
          cases hi
        have hieq : i = subs.length := by omega
        rw [hi0] at hi
        simp only [List.getElem?_cons_zero, Option.some.injEq] at hi
        subst hi
        subst hieq
        refine ⟨hv, ?_, .queued, ?_, ?_⟩
        · rw [hh, List.getElem?_append_right (by omega)]
          simp [hl]
        · show (s.queue ++ _)[subs.length]? = _
          rw [hq, List.getElem?_append_right (by omega)]
          simp [hql, hl]
        · show eventsOf subs.length (s.trace ++ _) = _
          rw [eventsOf_append, eventsOf_fresh subs.length subs.length s.trace hinv.tags
            (le_refl _), hq, he1]
          simp [eventsOf, Event.req, hl, fullHistory, Phase.progress]
  · have hv2 : validArgs args = false := by simpa using hv
    have hr := SleepCallbackAsync_invalid s.heap args hv2
    have hq : enqueued (SleepCallbackAsync s.heap args).1 = [] := by
      rw [hr]
      simp only
      split_ifs <;> rfl
    have hh : (SleepCallbackAsync s.heap args).2 = s.heap := by rw [hr]
    have hnc : (SleepCallbackAsync s.heap args).1.filter Effect.isCall = [] := by
      rw [hr]
      simp only
      split_ifs <;> rfl
    have hnc2 : (SleepCallbackAsync s.heap args).1.countP Effect.isCall = 0 := by
      rw [List.countP_eq_length_filter, hnc]
      rfl
    constructor
    · simpa [hh, validCalls, hv2] using hinv.heap_len
    · simpa [hq, validCalls, hv2] using hinv.queue_len
    · simpa [hq, validCalls, hv2] using hinv.tags
    · show (s.host ++ _).filter Effect.isCall = afterWorkEffects (s.trace ++ _)
      rw [List.filter_append, hnc, hq, hinv.host_order]
      simp
    · show (s.host ++ _).countP Effect.isCall = (s.queue ++ _).countP Work.isDispatched
      rw [List.countP_append, hnc2, hq, hinv.host_calls]
      simp
    · intro i a hi
      simp [validCalls, hv2] at hi
      obtain ⟨h1, h2, ph, h3, h4⟩ := hinv.task i a hi
      refine ⟨h1, ?_, ph, ?_, ?_⟩
      · rw [hh]; exact h2
      · simpa [hq] using h3
      · simpa [hq] using h4

/-- Moving entry `i` to its next phase while recording the next event of its
history keeps the invariant. -/
theorem inv_advance (p : Platform) (s : State) (subs : List (List JsValue))
    (hinv : Inv p s subs) (i : Nat) (args : List JsValue) (ph : Phase)
    (hsub : subs[i]? = some args)
    (hq : s.queue[i]? = some ⟨i, .SleepAsync, .SleepAsyncComplete, ph⟩)
    (hph : ph ≠ .dispatched) : Inv p (advance p s i args ph) subs := by
  have hilt : i < subs.length := by
    by_contra hge
    rw [List.getElem?_eq_none (by omega)] at hsub
    cases hsub
  have hreq : (nextEvent p i args ph).req = i := by
    cases ph <;> rfl
  constructor
  · exact hinv.heap_len
  · simpa [advance] using hinv.queue_len
  · intro e he
    simp only [advance, List.mem_append, List.mem_singleton] at he
    rcases he with he | he
    · exact hinv.tags e he
    · rw [he, hreq]; exact hilt
  · show (s.host ++ _).filter Effect.isCall = afterWorkEffects (s.trace ++ _)
    rw [afterWorkEffects_append, List.filter_append, hinv.host_order]
    cases ph <;> cases p <;>
      simp [nextEvent, Event.effects, afterWorkEffects, Effect.isCall, blockingSleep] at hph ⊢
  · show (s.host ++ _).countP Effect.isCall = (s.queue.set i _).countP Work.isDispatched
    have hbal := countP_set_balance Work.isDispatched s.queue i _
      ⟨i, .SleepAsync, .SleepAsyncComplete, ph.next⟩ hq
    have hold := hinv.host_calls
    rw [List.countP_append]
    cases ph <;> cases p <;>
      simp [nextEvent, Event.effects, Effect.isCall, blockingSleep, Work.isDispatched,
        Phase.next] at hph hbal ⊢ <;> omega
  · intro j a hj
    obtain ⟨h1, h2, ph2, h3, h4⟩ := hinv.task j a hj
    by_cases hij : j = i
    · subst hij
      rw [hsub] at hj
      cases hj
      rw [hq] at h3
      cases h3
      refine ⟨h1, h2, ph.next, ?_, ?_⟩
      · show (s.queue.set j _)[j]? = _
        rw [List.getElem?_set_self (by rw [hinv.queue_len]; exact hilt)]
      · show eventsOf j (s.trace ++ _) = _
        rw [eventsOf_append, h4, history_take_succ p j args ph hph]
        congr 1
        simp only [eventsOf, List.filter_cons, hreq, decide_True, if_true, List.filter_nil]
    · refine ⟨h1, h2, ph2, ?_, ?_⟩
      · show (s.queue.set i _)[j]? = _
        rw [List.getElem?_set_ne (fun h => hij h.symm)]
        exact h3
      · show eventsOf j (s.trace ++ _) = _
        rw [eventsOf_append, h4]
        simp only [eventsOf, List.filter_cons, hreq, List.filter_nil]
        have : decide (i = j) = false := by simpa using (fun h => hij h.symm)
        simp [this]

theorem inv_workInfoOf (p : Platform) (s : State) (subs : List (List JsValue))
    (hinv : Inv p s subs) (i : Nat) (args : List JsValue) (hsub : subs[i]? = some args) :
    workInfoOf s.heap i = some (descriptorFor i args) := by
  obtain ⟨_, h2, _⟩ := hinv.task i args hsub
  exact workInfoOf_self s.heap i _ h2 rfl

/-- An entry that is not dispatched has its next action enabled, and the
action does what `advance` says. -/
theorem step_enabled (p : Platform) (s : State) (subs : List (List JsValue))
    (hinv : Inv p s subs) (i : Nat) (args : List JsValue) (ph : Phase)
    (hsub : subs[i]? = some args)
    (hq : s.queue[i]? = some ⟨i, .SleepAsync, .SleepAsyncComplete, ph⟩)
    (hph : ph ≠ .dispatched) :
    step p s (ph.action i) = some (advance p s i args ph) := by
  have hw := inv_workInfoOf p s subs hinv i args hsub
  cases ph with
  | queued =>
    simp [Phase.action, step, hq, runWork, SleepAsync, hw, advance, nextEvent, Phase.next,
      descriptorFor, Event.effects, blockingSleep]
    cases p <;> simp [Effect.isCall]
  | running =>
    simp [Phase.action, step, hq, advance, nextEvent, Phase.next, Event.effects]
  | workDone =>
    simp [Phase.action, step, hq, runAfterWork, SleepAsyncComplete, hw, advance, nextEvent,
      Phase.next, descriptorFor, Event.effects, Effect.isCall]
  | dispatched => exact absurd rfl hph

/-- Every step the loop can take is the next action of some entry. -/
theorem step_loop_inv (p : Platform) (s : State) (subs : List (List JsValue))
    (hinv : Inv p s subs) (a : Action) (ha : a.isLoop = true) (s1 : State)
    (hs : step p s a = some s1) :
    ∃ i args ph, subs[i]? = some args ∧
      s.queue[i]? = some ⟨i, .SleepAsync, .SleepAsyncComplete, ph⟩ ∧
      ph ≠ .dispatched ∧ a = ph.action i ∧ s1 = advance p s i args ph := by
  have key : ∀ i w, s.queue[i]? = some w →
      ∃ args, subs[i]? = some args ∧
        w = (⟨i, .SleepAsync, .SleepAsyncComplete, w.phase⟩ : Work) := by
    intro i w hw
    have hi : i < subs.length := by
      by_contra hge
      rw [List.getElem?_eq_none (by rw [hinv.queue_len]; omega)] at hw
      cases hw
    refine ⟨subs[i], by simp, ?_⟩
    obtain ⟨_, _, ph, h3, _⟩ := hinv.task i subs[i] (by simp)
    rw [hw] at h3
    cases h3
    rfl
  cases a with
  | jsCall args => simp [Action.isLoop] at ha
  | startWork i =>
    cases hq : s.queue[i]? with
    | none => simp [step, hq] at hs
    | some w =>
      obtain ⟨args, hsub, hw⟩ := key i w hq
      by_cases hph : w.phase = .queued
      · rw [hw, hph] at hq
        have := step_enabled p s subs hinv i args .queued hsub hq (by simp)
        simp only [Phase.action] at this
        rw [this] at hs
        exact ⟨i, args, .queued, hsub, hq, by simp, rfl, by simpa using hs.symm⟩
      · simp [step, hq, hph] at hs
  | finishWork i =>
    cases hq : s.queue[i]? with
    | none => simp [step, hq] at hs
    | some w =>
      obtain ⟨args, hsub, hw⟩ := key i w hq
      by_cases hph : w.phase = .running
      · rw [hw, hph] at hq
        have := step_enabled p s subs hinv i args .running hsub hq (by simp)
        simp only [Phase.action] at this
        rw [this] at hs
        exact ⟨i, args, .running, hsub, hq, by simp, rfl, by simpa using hs.symm⟩
      · simp [step, hq, hph] at hs
  | dispatch i =>
    cases hq : s.queue[i]? with
    | none => simp [step, hq] at hs
    | some w =>
      obtain ⟨args, hsub, hw⟩ := key i w hq
      by_cases hph : w.phase = .workDone
      · rw [hw, hph] at hq
        have := step_enabled p s subs hinv i args .workDone hsub hq (by simp)
        simp only [Phase.action] at this
        rw [this] at hs
        exact ⟨i, args, .workDone, hsub, hq, by simp, rfl, by simpa using hs.symm⟩
      · simp [step, hq, hph] at hs

theorem inv_advance_state (p : Platform) (s : State) (subs : List (List JsValue))
    (hinv : Inv p s subs) (i : Nat) (args : List JsValue) (ph : Phase)
    (hsub : subs[i]? = some args)
    (hq : s.queue[i]? = some ⟨i, .SleepAsync, .SleepAsyncComplete, ph⟩)
    (hph : ph ≠ .dispatched) : Inv p (advance p s i args ph) subs :=
  inv_advance p s subs hinv i args ph hsub hq hph

theorem step_inv (p : Platform) (s : State) (subs : List (List JsValue))
    (hinv : Inv p s subs) (a : Action) (s1 : State) (hs : step p s a = some s1) :
    Inv p s1 (subs ++ validCalls [a]) := by
  by_cases ha : a.isLoop = true
  · obtain ⟨i, args, ph, hsub, hq, hph, _, rfl⟩ := step_loop_inv p s subs hinv a ha s1 hs
    rw [validCalls_loop [a] (by simpa using ha), List.append_nil]
    exact inv_advance_state p s subs hinv i args ph hsub hq hph
  · cases a with
    | jsCall args => exact inv_jsCall p s subs args hinv s1 hs
    | startWork i => simp [Action.isLoop] at ha
    | finishWork i => simp [Action.isLoop] at ha
    | dispatch i => simp [Action.isLoop] at ha

theorem run_inv (p : Platform) (acts : List Action) (s : State) (subs : List (List JsValue))
    (hinv : Inv p s subs) (s1 : State) (hs : run p s acts = some s1) :
    Inv p s1 (subs ++ validCalls acts) := by
  induction acts generalizing s subs with
  | nil =>
    simp only [run, Option.some.injEq] at hs
    subst hs
    simpa [validCalls] using hinv
  | cons a acts ih =>
    simp only [run] at hs
    cases hstep : step p s a with
    | none => simp [hstep] at hs
    | some s2 =>
      rw [hstep] at hs
      have h2 := step_inv p s subs hinv a s2 hstep
      have h3 := ih s2 _ h2 hs
      rw [validCalls_cons, ← List.append_assoc]
      exact h3

theorem reach_inv (p : Platform) (acts : List Action) (s : State)
    (hs : run p State.init acts = some s) : Inv p s (validCalls acts) := by
  simpa using run_inv p acts State.init [] (inv_init p) s hs

/-! ## Progress of the loop -/

theorem getElem?_of_lt_subs (subs : List (List JsValue)) (i : Nat) (h : i < subs.length) :
    ∃ args, subs[i]? = some args :=
  ⟨subs[i], by simp⟩

theorem advance_queue_self (p : Platform) (s : State) (i : Nat) (args : List JsValue)
    (ph : Phase) (w : Work) (hq : s.queue[i]? = some w) :
    (advance p s i args ph).queue[i]? = some ⟨i, .SleepAsync, .SleepAsyncComplete, ph.next⟩ := by
  have hi : i < s.queue.length := by
    by_contra hge
    rw [List.getElem?_eq_none (by omega)] at hq
    cases hq
  simp [advance, List.getElem?_set_self hi]

theorem advance_queue_other (p : Platform) (s : State) (i j : Nat) (args : List JsValue)
    (ph : Phase) (hij : j ≠ i) :
    (advance p s i args ph).queue[j]? = s.queue[j]? := by
  simp [advance, List.getElem?_set_ne (fun h => hij h.symm)]

/-- One entry can always be brought to its end by the loop alone, whatever the
other entries are doing, and this leaves the other entries where they are. -/
theorem complete_one (p : Platform) (n : Nat) :
    ∀ (s : State) (subs : List (List JsValue)) (_ : Inv p s subs) (i : Nat)
      (args : List JsValue) (ph : Phase), subs[i]? = some args →
      s.queue[i]? = some ⟨i, .SleepAsync, .SleepAsyncComplete, ph⟩ →
      4 - ph.progress ≤ n →
      ∃ rest s1, (∀ a ∈ rest, a.isLoop = true) ∧ run p s rest = some s1 ∧ Inv p s1 subs ∧
        s1.queue[i]? = some ⟨i, .SleepAsync, .SleepAsyncComplete, .dispatched⟩ ∧
        ∀ j, j ≠ i → s1.queue[j]? = s.queue[j]? := by
  induction n with
  | zero =>
    intro s subs hinv i args ph _ hq hn
    have hph : ph = .dispatched := by
      cases ph <;> simp [Phase.progress] at hn ⊢
    subst hph
    exact ⟨[], s, by simp, rfl, hinv, hq, fun _ _ => rfl⟩
  | succ n ih =>
    intro s subs hinv i args ph hsub hq hn
    by_cases hph : ph = .dispatched
    · subst hph
      exact ⟨[], s, by simp, rfl, hinv, hq, fun _ _ => rfl⟩
    · have hstep := step_enabled p s subs hinv i args ph hsub hq hph
      have hinv2 := inv_advance_state p s subs hinv i args ph hsub hq hph
      have hq2 := advance_queue_self p s i args ph _ hq
      have hn2 : 4 - ph.next.progress ≤ n := by
        cases ph <;> simp [Phase.progress, Phase.next] at hn hph ⊢ <;> omega
      obtain ⟨rest, s1, h1, h2, h3, h4, h5⟩ :=
        ih (advance p s i args ph) subs hinv2 i args ph.next hsub hq2 hn2
      refine ⟨ph.action i :: rest, s1, ?_, ?_, h3, h4, ?_⟩
      · intro a ha
        simp only [List.mem_cons] at ha
        rcases ha with ha | ha
        · subst ha
          cases ph <;> rfl
        · exact h1 a ha
      · simp only [run, hstep]
        exact h2
      · intro j hj
        rw [h5 j hj, advance_queue_other p s i j args ph hj]

/-- The loop alone can bring the first `k` entries to their end. -/
theorem complete_upto (p : Platform) (s : State) (subs : List (List JsValue))
    (hinv : Inv p s subs) (k : Nat) (hk : k ≤ subs.length) :
    ∃ rest s1, (∀ a ∈ rest, a.isLoop = true) ∧ run p s rest = some s1 ∧ Inv p s1 subs ∧
      ∀ j, j < k → phaseOf s1 j = some .dispatched := by
  induction k with
  | zero => exact ⟨[], s, by simp, rfl, hinv, fun j hj => absurd hj (by omega)⟩
  | succ k ih =>
    obtain ⟨rest, s1, h1, h2, h3, h4⟩ := ih (by omega)
    obtain ⟨args, hsub⟩ := getElem?_of_lt_subs subs k (by omega)
    obtain ⟨_, _, ph, hq, _⟩ := h3.task k args hsub
    obtain ⟨rest2, s2, g1, g2, g3, g4, g5⟩ :=
      complete_one p (4 - ph.progress) s1 subs h3 k args ph hsub hq (le_refl _)
    refine ⟨rest ++ rest2, s2, ?_, ?_, g3, ?_⟩
    · intro a ha
      simp only [List.mem_append] at ha
      rcases ha with ha | ha
      · exact h1 a ha
      · exact g1 a ha
    · rw [run_append, h2]
      exact g2
    · intro j hj
      by_cases hjk : j = k
      · subst hjk
        simp [phaseOf, g4]
      · have := h4 j (by omega)
        simpa [phaseOf, g5 j hjk] using this

theorem quiescent_of_dispatched (p : Platform) (s : State)
    (h : ∀ (i : Nat) (w : Work), s.queue[i]? = some w → w.phase = Phase.dispatched) :
    quiescent p s := by
  intro i
  cases hq : s.queue[i]? with
  | none => simp [step, hq]
  | some w =>
    have := h i w hq
    simp [step, hq, this]

theorem dispatched_of_quiescent (p : Platform) (s : State) (subs : List (List JsValue))
    (hinv : Inv p s subs) (hqs : quiescent p s) (i : Nat) (hi : i < subs.length) :
    phaseOf s i = some .dispatched := by
  obtain ⟨args, hsub⟩ := getElem?_of_lt_subs subs i hi
  obtain ⟨_, _, ph, hq, _⟩ := hinv.task i args hsub
  by_cases hph : ph = .dispatched
  · subst hph
    simp [phaseOf, hq]
  · have hstep := step_enabled p s subs hinv i args ph hsub hq hph
    obtain ⟨q1, q2, q3⟩ := hqs i
    cases ph with
    | queued => simp [Phase.action, q1] at hstep
    | running => simp [Phase.action, q2] at hstep
    | workDone => simp [Phase.action, q3] at hstep
    | dispatched => exact absurd rfl hph

theorem invocations_of_phase (p : Platform) (i : Nat) (args : List JsValue) (ph : Phase)
    (trace : List Event)
    (h : eventsOf i trace = (fullHistory p i args).take ph.progress) :
    invocations i trace = if ph = .dispatched then 1 else 0 := by
  unfold invocations
  rw [h]
  cases ph <;> cases p <;>
    simp [fullHistory, Phase.progress, Event.effects, Effect.isCall, blockingSleep]

theorem calls_of_history (p : Platform) (i : Nat) (args : List JsValue) (k : Nat) :
    ∀ e ∈ (fullHistory p i args).take k, ∀ c ∈ e.effects, c.isCall = true →
      c = .call (argAt args 1) .null 0 := by
  intro e he c hc hcall
  have he2 : e ∈ fullHistory p i args := List.mem_of_mem_take he
  simp only [fullHistory, List.mem_cons, List.mem_singleton, List.not_mem_nil, or_false] at he2
  rcases he2 with rfl | rfl | rfl | rfl
  · simp only [Event.effects, List.mem_cons, List.mem_singleton, List.not_mem_nil,
      or_false] at hc
    rcases hc with rfl | rfl | rfl <;> simp [Effect.isCall] at hcall
  · simp only [Event.effects, List.mem_singleton] at hc
    subst hc
    cases p <;> simp [blockingSleep, Effect.isCall] at hcall
  · simp [Event.effects] at hc
  · simpa [Event.effects] using hc

/-- When every entry is dispatched, the dispatched entries are as many as the
valid calls. -/
theorem count_of_all_dispatched (p : Platform) (t : State) (subs : List (List JsValue))
    (ht : Inv p t subs) (h : ∀ i, i < subs.length → phaseOf t i = some .dispatched) :
    t.queue.countP Work.isDispatched = subs.length := by
  rw [← ht.queue_len, List.countP_eq_length]
  intro w hw
  obtain ⟨i, hi⟩ := List.mem_iff_getElem?.1 hw
  have hlt : i < subs.length := by
    by_contra hge
    rw [List.getElem?_eq_none (by rw [ht.queue_len]; omega)] at hi
    cases hi
  have := h i hlt
  simp only [phaseOf, hi, Option.map_some', Option.some.injEq] at this
  simp [Work.isDispatched, this]

/-! ## The claims about the process -/

/-- C1, single invocation.  After any interleaving `acts` of calls from
JavaScript and steps of the loop: the queue has one request per valid call;
counting the calls of JavaScript functions made by every function run for the
request of the `i`-th valid call (the submitting call of `SleepCallbackAsync`
itself, the work callback, the after-work callback), that request has had at
most one, exactly one once it is dispatched, and a call made for it is a call
of the callback of that call, with no argument and a null receiver; a request
that no valid call made has none; the calls made on the host thread, by
accepted and rejected calls of `SleepCallbackAsync` and by the after-work
callbacks together, are as many as the dispatched requests; when the loop has
nothing left to do every valid call has had exactly one invocation and the
host thread has made as many calls as there were valid calls; and the loop
alone can always reach that point. -/
theorem single_invocation (p : Platform) (acts : List Action) (s : State)
    (hrun : run p State.init acts = some s) :
    s.queue.length = (validCalls acts).length ∧
    (∀ i args, (validCalls acts)[i]? = some args →
      invocations i s.trace ≤ 1 ∧
      (phaseOf s i = some .dispatched → invocations i s.trace = 1) ∧
      (∀ e ∈ eventsOf i s.trace, ∀ c ∈ e.effects, c.isCall = true →
        c = .call (argAt args 1) .null 0)) ∧
    (∀ i, (validCalls acts).length ≤ i → invocations i s.trace = 0) ∧
    (quiescent p s → ∀ i, i < (validCalls acts).length → invocations i s.trace = 1) ∧
    (∃ rest s1, (∀ a ∈ rest, a.isLoop = true) ∧ run p s rest = some s1 ∧ quiescent p s1 ∧
      (∀ i, i < (validCalls acts).length → invocations i s1.trace = 1) ∧
      s1.host.countP Effect.isCall = (validCalls acts).length) ∧
    s.host.countP Effect.isCall = s.queue.countP Work.isDispatched ∧
    s.host.countP Effect.isCall ≤ (validCalls acts).length ∧
    (quiescent p s → s.host.countP Effect.isCall = (validCalls acts).length) := by
  have hinv := reach_inv p acts s hrun
  have hdone : ∀ (t : State), Inv p t (validCalls acts) → ∀ i, i < (validCalls acts).length →
      phaseOf t i = some .dispatched → invocations i t.trace = 1 := by
    intro t ht i hi hph
    obtain ⟨args, hsub⟩ := getElem?_of_lt_subs _ i hi
    obtain ⟨_, _, ph, hq, hev⟩ := ht.task i args hsub
    rw [invocations_of_phase p i args ph t.trace hev]
    simp only [phaseOf, hq, Option.map_some', Option.some.injEq] at hph
    simp [hph]
  refine ⟨hinv.queue_len, ?_, ?_, ?_, ?_, hinv.host_calls, ?_, ?_⟩
  · intro i args hsub
    obtain ⟨_, _, ph, hq, hev⟩ := hinv.task i args hsub
    have hcount := invocations_of_phase p i args ph s.trace hev
    refine ⟨?_, ?_, ?_⟩
    · rw [hcount]; split_ifs <;> omega
    · intro hph
      simp only [phaseOf, hq, Option.map_some', Option.some.injEq] at hph
      rw [hcount]; simp [hph]
    · rw [hev]
      exact calls_of_history p i args ph.progress
  · intro i hi
    simp [invocations, eventsOf_fresh i _ s.trace hinv.tags hi]
  · intro hqs i hi
    exact hdone s hinv i hi (dispatched_of_quiescent p s _ hinv hqs i hi)
  · obtain ⟨rest, s1, h1, h2, h3, h4⟩ :=
      complete_upto p s (validCalls acts) hinv (validCalls acts).length (le_refl _)
    refine ⟨rest, s1, h1, h2, ?_, fun i hi => hdone s1 h3 i hi (h4 i hi), ?_⟩
    · apply quiescent_of_dispatched
      intro i w hw
      have hi : i < (validCalls acts).length := by
        by_contra hge
        rw [List.getElem?_eq_none (by rw [h3.queue_len]; omega)] at hw
        cases hw
      have := h4 i hi
      simpa [phaseOf, hw] using this
    · rw [h3.host_calls]
      exact count_of_all_dispatched p s1 _ h3 h4
  · rw [hinv.host_calls, ← hinv.queue_len]
    exact List.countP_le_length _
  · intro hqs
    rw [hinv.host_calls]
    exact count_of_all_dispatched p s _ hinv
      (fun i hi => dispatched_of_quiescent p s _ hinv hqs i hi)

/-- Witness of C1 on the run `demoActs`: two valid calls and a rejected one,
the second request dispatched and the first still running; one call has been
made on the host thread. -/
theorem single_invocation_witness :
    run .posix State.init demoActs = some demoState ∧
    demoState.queue.length = 2 ∧
    invocations 0 demoState.trace ≤ 1 ∧
    (phaseOf demoState 1 = some .dispatched → invocations 1 demoState.trace = 1) ∧
    invocations 2 demoState.trace = 0 ∧
    demoState.host.countP Effect.isCall = demoState.queue.countP Work.isDispatched ∧
    demoState.queue.countP Work.isDispatched = 1 :=
  ⟨rfl,
   (single_invocation .posix demoActs demoState rfl).1,
   ((single_invocation .posix demoActs demoState rfl).2.1 0 [.int 50, .function 1] rfl).1,
   ((single_invocation .posix demoActs demoState rfl).2.1 1 [.int 10, .function 2] rfl).2.1,
   (single_invocation .posix demoActs demoState rfl).2.2.1 2 (by decide),
   (single_invocation .posix demoActs demoState rfl).2.2.2.2.2.1,
   rfl⟩

theorem validArgs_shape (args : List JsValue) (h : validArgs args = true) :
    argAt args 0 = .int (Uint32Value (argAt args 0)) ∧ Uint32Value (argAt args 0) < 2 ^ 32 ∧
    ∃ f, argAt args 1 = .function f := by
  simp only [validArgs, Bool.and_eq_true, decide_eq_true_eq] at h
  obtain ⟨⟨_, h2⟩, h3⟩ := h
  refine ⟨?_, ?_, ?_⟩
  · cases h0 : argAt args 0 <;> simp [h0, IsUint32] at h2
    rename_i z
    simp only [Uint32Value, JsValue.int.injEq]
    have h4 : z % 2 ^ 32 = z := Int.emod_eq_of_lt h2.1 h2.2
    rw [h4]
    exact (Int.toNat_of_nonneg h2.1).symm
  · cases h0 : argAt args 0 <;> simp [h0, IsUint32] at h2
    rename_i z
    simp only [Uint32Value]
    have h4 : z % 2 ^ 32 = z := Int.emod_eq_of_lt h2.1 h2.2
    rw [h4]
    omega
  · cases h1 : argAt args 1 <;> simp [h1, IsFunction] at h3
    exact ⟨_, rfl⟩

theorem reorder_run (p : Platform) :
    run p State.init reorderActs = some (reorderState p) := by
  cases p <;> rfl

theorem reorder_quiescent (p : Platform) : quiescent p (reorderState p) := by
  apply quiescent_of_dispatched
  have hq : (reorderState p).queue =
      [⟨0, .SleepAsync, .SleepAsyncComplete, .dispatched⟩,
       ⟨1, .SleepAsync, .SleepAsyncComplete, .dispatched⟩] := by
    cases p <;> rfl
  intro i w hw
  rw [hq] at hw
  match i with
  | 0 => simp at hw; rw [← hw]
  | 1 => simp at hw; rw [← hw]
  | (n + 2) => simp at hw

theorem reorder_orders (p : Platform) :
    submissionOrder (reorderState p).trace = [0, 1] ∧
    completionOrder (reorderState p).trace = [1, 0] := by
  cases p <;> exact ⟨rfl, rfl⟩

/-- C8, per-descriptor ordering.  Of the functions of the addon,
`SleepCallbackAsync` registers `SleepAsync` as the work function and
`SleepAsyncComplete` as the after-work function of the one request it queues;
after any interleaving, the events recorded about the request of the `i`-th
valid call, with the effects of every function run for it, are the first
events, as many as its phase says, of the one history: submitted (the
submitting call creates the descriptor, resets the handle and queues the
request, and does nothing else), work started (the sleep and nothing else),
work finished, after-work (the call of the callback and nothing else); so no
step is skipped or repeated, and as long as the request is not dispatched no
call of a JavaScript function has been made for it; every event is about such
a request; the calls made on the host thread, by any call of
`SleepCallbackAsync` or by the loop, are exactly the effects of the after-work
runs, in their order; and there is a run in which two requests complete in the
reverse of the order of their submission. -/
theorem per_descriptor_ordering (p : Platform) (acts : List Action) (s : State)
    (hrun : run p State.init acts = some s) :
    (∀ (heap : Heap) (args : List JsValue), validArgs args = true →
      enqueued (SleepCallbackAsync heap args).1 =
        [⟨heap.length, .SleepAsync, .SleepAsyncComplete, .queued⟩] ∧
      (SleepCallbackAsync heap args).1.filter Effect.isQueueWork =
        [.queueWork heap.length NativeFn.SleepAsync NativeFn.SleepAsyncComplete]) ∧
    (∀ i args, (validCalls acts)[i]? = some args →
      ∃ ph, s.queue[i]? = some ⟨i, .SleepAsync, .SleepAsyncComplete, ph⟩ ∧
        eventsOf i s.trace = (fullHistory p i args).take ph.progress ∧
        (ph ≠ .dispatched → invocations i s.trace = 0) ∧
        (ph = .dispatched → eventsOf i s.trace =
          [.submitted i [.newWorkInfo i, .persistentReset i (argAt args 1),
                         .queueWork i NativeFn.SleepAsync NativeFn.SleepAsyncComplete],
           .workStarted i [blockingSleep p (Uint32Value (argAt args 0))],
           .workFinished i, .afterWork i [.call (argAt args 1) .null 0]])) ∧
    (∀ e ∈ s.trace, e.req < (validCalls acts).length) ∧
    s.host.filter Effect.isCall = afterWorkEffects s.trace ∧
    (∃ acts2 s2, run p State.init acts2 = some s2 ∧ quiescent p s2 ∧
      submissionOrder s2.trace = [0, 1] ∧ completionOrder s2.trace = [1, 0]) := by
  have hinv := reach_inv p acts s hrun
  refine ⟨?_, ?_, hinv.tags, hinv.host_order, ?_⟩
  · intro heap args hv
    rw [SleepCallbackAsync_valid heap args hv]
    exact ⟨rfl, rfl⟩
  · intro i args hsub
    obtain ⟨_, _, ph, hq, hev⟩ := hinv.task i args hsub
    refine ⟨ph, hq, hev, ?_, ?_⟩
    · intro hph
      rw [invocations_of_phase p i args ph s.trace hev]
      simp [hph]
    · intro hph
      subst hph
      rw [hev]
      rfl
  · exact ⟨reorderActs, reorderState p, reorder_run p, reorder_quiescent p,
      reorder_orders p⟩

/-- Witness of C8 on the run `demoActsDone`, where both requests have been
dispatched, the second first. -/
theorem per_descriptor_ordering_witness :
    run .posix State.init demoActsDone = some demoStateDone ∧
    eventsOf 0 demoStateDone.trace =
      [.submitted 0 [.newWorkInfo 0, .persistentReset 0 (.function 1),
                     .queueWork 0 .SleepAsync .SleepAsyncComplete],
       .workStarted 0 [.usleep 50000], .workFinished 0,
       .afterWork 0 [.call (.function 1) .null 0]] ∧
    demoStateDone.host.filter Effect.isCall =
      [.call (.function 2) .null 0, .call (.function 1) .null 0] ∧
    completionOrder demoStateDone.trace = [1, 0] :=
  ⟨rfl,
   by
    obtain ⟨ph, hq, _, _, h⟩ :=
      (per_descriptor_ordering .posix demoActsDone demoStateDone rfl).2.1 0
        [.int 50, .function 1] rfl
    have hph : ph = .dispatched := by
      have hq2 : demoStateDone.queue[0]? =
          some ⟨0, .SleepAsync, .SleepAsyncComplete, .dispatched⟩ := rfl
      rw [hq2] at hq
      cases hq
      rfl
    exact h hph,
   (per_descriptor_ordering .posix demoActsDone demoStateDone rfl).2.2.2.1.trans rfl,
   rfl⟩

theorem step_loop_heap (p : Platform) (s : State) (subs : List (List JsValue))
    (hinv : Inv p s subs) (a : Action) (ha : a.isLoop = true) (s1 : State)
    (hs : step p s a = some s1) : s1.heap = s.heap := by
  obtain ⟨i, args, ph, _, _, _, _, rfl⟩ := step_loop_inv p s subs hinv a ha s1 hs
  rfl

/-- One request per descriptor.  After any interleaving, whatever the
number of requests in flight, the `i`-th valid call, made with `args`, has
queue entry `i`, which carries request `i` and is the only entry to do so;
the `data` pointer of that request leads to the descriptor at `i`, which holds
the first argument of that call as `sleepTime` and its second argument as
callback; `SleepAsync` on that request performs the sleep of the source for
that `sleepTime` (`Sleep(d)`, or `usleep` of `d * 1000` reduced modulo `2^32`)
and `SleepAsyncComplete` on it calls the callback of that call and nothing
else.  At the call itself, for any heap, the request queued is the one of the
descriptor just created, and the descriptors already there are not touched. -/
theorem request_descriptor_correlation (p : Platform) (acts : List Action) (s : State)
    (hrun : run p State.init acts = some s) (i : Nat) (args : List JsValue)
    (hcall : (validCalls acts)[i]? = some args) (status : Int) :
    (∃ ph, s.queue[i]? = some ⟨i, .SleepAsync, .SleepAsyncComplete, ph⟩) ∧
    (∀ (j : Nat) (w : Work), s.queue[j]? = some w → w.req = i → j = i) ∧
    (∃ w, s.heap[i]? = some w ∧ w.request.data = some i ∧ workInfoOf s.heap i = some w ∧
      w.sleepTime = Uint32Value (argAt args 0) ∧
      argAt args 0 = .int (Uint32Value (argAt args 0)) ∧
      w.jsCallback = some (argAt args 1)) ∧
    SleepAsync p s.heap i = some ([blockingSleep p (Uint32Value (argAt args 0))], s.heap) ∧
    SleepAsyncComplete s.heap i status = some ([.call (argAt args 1) .null 0], s.heap) ∧
    (∀ (heap : Heap) (args2 : List JsValue), validArgs args2 = true →
      (SleepCallbackAsync heap args2).1.filter Effect.isQueueWork =
        [.queueWork heap.length .SleepAsync .SleepAsyncComplete] ∧
      workInfoOf (SleepCallbackAsync heap args2).2 heap.length =
        some (descriptorFor heap.length args2) ∧
      ∀ a, a < heap.length → (SleepCallbackAsync heap args2).2[a]? = heap[a]?) := by
  have hinv := reach_inv p acts s hrun
  obtain ⟨hv, hheap, ph, hq, _⟩ := hinv.task i args hcall
  have hw := inv_workInfoOf p s _ hinv i args hcall
  refine ⟨⟨ph, hq⟩, ?_, ⟨_, hheap, rfl, hw, rfl, (validArgs_shape args hv).1, rfl⟩, ?_, ?_, ?_⟩
  · intro j w hj hreq
    have hjlt : j < (validCalls acts).length := by
      by_contra hge
      rw [List.getElem?_eq_none (by rw [hinv.queue_len]; omega)] at hj
      cases hj
    obtain ⟨a2, hsub2⟩ := getElem?_of_lt_subs _ j hjlt
    obtain ⟨_, _, ph2, hq2, _⟩ := hinv.task j a2 hsub2
    rw [hj] at hq2
    cases hq2
    exact hreq
  · simp [SleepAsync, hw, descriptorFor]
  · simp [SleepAsyncComplete, hw, descriptorFor]
  · intro heap args2 hv2
    rw [SleepCallbackAsync_valid heap args2 hv2]
    refine ⟨by simp [Effect.isQueueWork], ?_, ?_⟩
    · apply workInfoOf_self
      · simp
      · rfl
    · intro a ha
      simp [List.getElem?_append_left ha]

/-- The correlation on the run `demoActs`: the second valid call, of 10 ms with
callback 2, has request 1. -/
theorem request_descriptor_correlation_witness :
    run .posix State.init demoActs = some demoState ∧
    (validCalls demoActs)[1]? = some [.int 10, .function 2] ∧
    SleepAsync .posix demoState.heap 1 = some ([.usleep 10000], demoState.heap) ∧
    SleepAsyncComplete demoState.heap 1 0 =
      some ([.call (.function 2) .null 0], demoState.heap) :=
  ⟨rfl, rfl,
   (request_descriptor_correlation .posix demoActs demoState rfl 1
      [.int 10, .function 2] rfl 0).2.2.2.1,
   (request_descriptor_correlation .posix demoActs demoState rfl 1
      [.int 10, .function 2] rfl 0).2.2.2.2.1⟩

/-- C2 at the failing input.  With `sleepCallbackAsync(50, f1)` and
`sleepCallbackAsync(4294968, f2)` both in flight on the path without `_WIN32`,
the request queued by the second call is request 1, its `data` pointer leads to
the descriptor of that call (`sleepTime` 4294968, callback `f2`), and
`SleepAsyncComplete` on it calls `f2`; but `SleepAsync` on it calls
`usleep(704)`, and 704 microseconds are not 4294968 milliseconds. -/
theorem correlated_sleep_wraps :
    run .posix State.init longSleepActs = some longSleepState ∧
    longSleepState.queue[1]? = some ⟨1, .SleepAsync, .SleepAsyncComplete, .queued⟩ ∧
    workInfoOf longSleepState.heap 1 = some ⟨⟨some 1⟩, 4294968, some (.function 2)⟩ ∧
    SleepAsyncComplete longSleepState.heap 1 0 =
      some ([.call (.function 2) .null 0], longSleepState.heap) ∧
    SleepAsync .posix longSleepState.heap 1 = some ([.usleep 704], longSleepState.heap) ∧
    (704 : Nat) ≠ 4294968 * 1000 :=
  ⟨rfl, rfl, rfl, rfl, rfl, by decide⟩

/-- C5 as stated fails: after `sleepCallbackAsync(5, f1)` has run to its end
(request dispatched, callback called once), the descriptor at address 0 is
still live, with its handle, while no descriptor was live before the call. -/
theorem descriptor_release_counterexample :
    run .posix State.init oneTaskActs = some oneTaskState ∧
    oneTaskState.queue.map Work.phase = [.dispatched] ∧
    invocations 0 oneTaskState.trace = 1 ∧
    liveDescriptors State.init.heap = [] ∧
    liveDescriptors oneTaskState.heap = [0] ∧
    oneTaskState.heap[0]? = some ⟨⟨some 0⟩, 5, some (.function 1)⟩ ∧
    liveDescriptors oneTaskState.heap ≠ liveDescriptors State.init.heap :=
  ⟨rfl, rfl, rfl, rfl, rfl, rfl, by decide⟩

/-- C5 amended: descriptors are created and never released.  After any
interleaving the live descriptors are exactly those of the valid calls made
so far; the descriptor of each of them is there in full, its callback handle
included, whatever the phase of its request, hence also when
`SleepAsyncComplete` calls the callback; `SleepAsyncComplete` calls the
callback and returns the heap as it found it; no step of the loop changes the
heap; and a valid call adds one descriptor to the live ones. -/
theorem descriptor_stays_live (p : Platform) (acts : List Action) (s : State)
    (hrun : run p State.init acts = some s) :
    liveDescriptors s.heap = List.range (validCalls acts).length ∧
    (∀ i args, (validCalls acts)[i]? = some args →
      s.heap[i]? = some (descriptorFor i args) ∧
      ∀ status : Int, SleepAsyncComplete s.heap i status =
        some ([.call (argAt args 1) .null 0], s.heap)) ∧
    (∀ (a : Action) (s1 : State), a.isLoop = true → step p s a = some s1 → s1.heap = s.heap) ∧
    (∀ (args : List JsValue) (s1 : State), validArgs args = true →
      step p s (.jsCall args) = some s1 →
      liveDescriptors s1.heap = liveDescriptors s.heap ++ [s.heap.length]) := by
  have hinv := reach_inv p acts s hrun
  refine ⟨by simp [liveDescriptors, hinv.heap_len], ?_, ?_, ?_⟩
  · intro i args hcall
    obtain ⟨_, hheap, _⟩ := hinv.task i args hcall
    have hw := inv_workInfoOf p s _ hinv i args hcall
    exact ⟨hheap, fun status => by simp [SleepAsyncComplete, hw, descriptorFor]⟩
  · intro a s1 ha hs
    exact step_loop_heap p s _ hinv a ha s1 hs
  · intro args s1 hv hs
    simp only [step, Option.some.injEq] at hs
    subst hs
    simp [SleepCallbackAsync_valid s.heap args hv, liveDescriptors, List.range_succ]

/-- Witness of the amended C5 on the run `oneTaskActs`. -/
theorem descriptor_stays_live_witness :
    run .posix State.init oneTaskActs = some oneTaskState ∧
    liveDescriptors oneTaskState.heap = List.range (validCalls oneTaskActs).length ∧
    oneTaskState.heap[0]? = some (descriptorFor 0 [.int 5, .function 1]) :=
  ⟨rfl, (descriptor_stays_live .posix oneTaskActs oneTaskState rfl).1,
   ((descriptor_stays_live .posix oneTaskActs oneTaskState rfl).2.1 0
      [.int 5, .function 1] rfl).1⟩

/-! ## The claims about the functions -/

theorem validArgs_false_iff (args : List JsValue) :
    validArgs args = false ↔
      (args.length < 2 ∨ IsUint32 (argAt args 0) = false ∨ IsFunction (argAt args 1) = false) := by
  simp only [validArgs, Bool.and_eq_false_iff, decide_eq_false_iff_not, not_le]
  tauto

/-- C3, rejection before any task exists.  For every heap and argument list:
`SleepCallbackAsync` throws exactly when the list has fewer than two
arguments, or its first argument is not a uint32, or its second is not a
function; the three cases are tried in this order and give an Error with the
first message, a TypeError with the second (whatever the second argument is),
a TypeError with the third; when it throws, the throw is its only effect, the
heap is the same, nothing is created and nothing is queued, and the process
has the same queue and heap after the call; when it does not throw it creates
one descriptor and queues one request; and the arguments after the second are
not looked at. -/
theorem synchronous_rejection (heap : Heap) (args : List JsValue) :
    ((∃ e ∈ (SleepCallbackAsync heap args).1, e.isThrow = true) ↔
      (args.length < 2 ∨ IsUint32 (argAt args 0) = false ∨
        IsFunction (argAt args 1) = false)) ∧
    (args.length < 2 →
      SleepCallbackAsync heap args = ([.throwError msgArgCount], heap)) ∧
    (2 ≤ args.length → IsUint32 (argAt args 0) = false →
      SleepCallbackAsync heap args = ([.throwTypeError msgFirstArg], heap)) ∧
    (2 ≤ args.length → IsUint32 (argAt args 0) = true → IsFunction (argAt args 1) = false →
      SleepCallbackAsync heap args = ([.throwTypeError msgSecondArg], heap)) ∧
    (validArgs args = false →
      (SleepCallbackAsync heap args).2 = heap ∧
      (SleepCallbackAsync heap args).1.countP Effect.isNew = 0 ∧
      (SleepCallbackAsync heap args).1.countP Effect.isQueueWork = 0 ∧
      ∀ (p : Platform) (s s1 : State), s.heap = heap → step p s (.jsCall args) = some s1 →
        s1.heap = s.heap ∧ s1.queue = s.queue ∧ s1.trace = s.trace) ∧
    (validArgs args = true →
      SleepCallbackAsync heap args =
        ([.newWorkInfo heap.length, .persistentReset heap.length (argAt args 1),
          .queueWork heap.length .SleepAsync .SleepAsyncComplete],
         heap ++ [descriptorFor heap.length args]) ∧
      (SleepCallbackAsync heap args).1.countP Effect.isNew = 1 ∧
      (SleepCallbackAsync heap args).1.countP Effect.isQueueWork = 1 ∧
      (SleepCallbackAsync heap args).2.length = heap.length + 1 ∧
      (enqueued (SleepCallbackAsync heap args).1).length = 1) ∧
    (∀ (a b : JsValue) (rest : List JsValue),
      SleepCallbackAsync heap (a :: b :: rest) = SleepCallbackAsync heap [a, b]) := by
  have hinvalid : validArgs args = false →
      (SleepCallbackAsync heap args).2 = heap ∧
      ∃ e, (SleepCallbackAsync heap args).1 = [e] ∧ e.isThrow = true ∧ e.isNew = false ∧
        e.isQueueWork = false := by
    intro hv
    rw [SleepCallbackAsync_invalid heap args hv]
    refine ⟨rfl, _, rfl, ?_⟩
    split_ifs <;> exact ⟨rfl, rfl, rfl⟩
  refine ⟨?_, ?_, ?_, ?_, ?_, ?_, ?_⟩
  · rw [← validArgs_false_iff]
    constructor
    · rintro ⟨e, he, hthrow⟩
      by_contra hv
      have hv2 : validArgs args = true := by simpa using hv
      rw [SleepCallbackAsync_valid heap args hv2] at he
      simp only [List.mem_cons, List.mem_singleton, List.not_mem_nil, or_false] at he
      rcases he with rfl | rfl | rfl <;> simp [Effect.isThrow] at hthrow
    · intro hv
      obtain ⟨_, e, he, hthrow, _⟩ := hinvalid hv
      exact ⟨e, by simp [he], hthrow⟩
  · intro h
    simp [SleepCallbackAsync, h]
  · intro h1 h2
    have : ¬ args.length < 2 := by omega
    simp [SleepCallbackAsync, this, h2]
  · intro h1 h2 h3
    have : ¬ args.length < 2 := by omega
    simp [SleepCallbackAsync, this, h2, h3]
  · intro hv
    obtain ⟨h1, e, he, _, hnew, hq⟩ := hinvalid hv
    refine ⟨h1, by simp [he, hnew], by simp [he, hq], ?_⟩
    intro p s s1 hs hstep
    subst hs
    simp only [step, Option.some.injEq] at hstep
    subst hstep
    have hen : enqueued (SleepCallbackAsync s.heap args).1 = [] := by
      rw [he]
      cases e <;> simp [enqueued, Effect.isQueueWork] at hq ⊢
    simp [h1, hen]
  · intro hv
    rw [SleepCallbackAsync_valid heap args hv]
    exact ⟨rfl, by simp [Effect.isNew], by simp [Effect.isQueueWork], by simp,
      by simp [enqueued]⟩
  · intro a b rest
    simp [SleepCallbackAsync, argAt]

/-- Witness of C3: a string in place of the duration, with a second argument
that is not a function either, on a heap that already holds a descriptor. -/
theorem synchronous_rejection_witness :
    (2 ≤ [JsValue.string "soon", JsValue.int 3].length ∧
      IsUint32 (argAt [JsValue.string "soon", JsValue.int 3] 0) = false) ∧
    SleepCallbackAsync [⟨⟨some 0⟩, 5, some (.function 1)⟩] [.string "soon", .int 3] =
      ([.throwTypeError msgFirstArg], [⟨⟨some 0⟩, 5, some (.function 1)⟩]) :=
  ⟨⟨by decide, rfl⟩,
   (synchronous_rejection [⟨⟨some 0⟩, 5, some (.function 1)⟩]
      [.string "soon", .int 3]).2.2.1 (by decide) rfl⟩

theorem workInfoOf_map_callback (heap : Heap) (req : Nat) (g : WorkInfo → Option JsValue) :
    workInfoOf (heap.map (fun w => { w with jsCallback := g w })) req =
      (workInfoOf heap req).map (fun w => { w with jsCallback := g w }) := by
  unfold workInfoOf
  simp only [List.getElem?_map]
  cases heap[req]? with
  | none => rfl
  | some owner =>
    simp only [Option.map_some']
    cases owner.request.data with
    | none => rfl
    | some a => simp

/-- C6, the worker touches only the duration.  For a request that leads to a
descriptor, `SleepAsync` returns, its one effect is the sleep of the source
for the `sleepTime` of that descriptor, and the heap it returns is the heap
it was given, so no field of any descriptor changes; two requests, in any two
heaps, whose descriptors have the same `sleepTime` give the same effects; and
putting other callback handles in the descriptors of the heap changes
nothing to the effects. -/
theorem worker_touches_only_duration (p : Platform) (heap1 heap2 : Heap) (r1 r2 : Nat)
    (w1 w2 : WorkInfo) (h1 : workInfoOf heap1 r1 = some w1)
    (h2 : workInfoOf heap2 r2 = some w2) :
    SleepAsync p heap1 r1 = some ([blockingSleep p w1.sleepTime], heap1) ∧
    (w1.sleepTime = w2.sleepTime →
      (SleepAsync p heap1 r1).map Prod.fst = (SleepAsync p heap2 r2).map Prod.fst) ∧
    (∀ g : WorkInfo → Option JsValue,
      (SleepAsync p (heap1.map (fun w => { w with jsCallback := g w })) r1).map Prod.fst =
        (SleepAsync p heap1 r1).map Prod.fst) := by
  refine ⟨by simp [SleepAsync, h1], ?_, ?_⟩
  · intro h
    simp [SleepAsync, h1, h2, h]
  · intro g
    simp [SleepAsync, workInfoOf_map_callback, h1]

/-- Witness of C6: two descriptors of 7 ms with different callbacks, at
different addresses of different heaps. -/
theorem worker_touches_only_duration_witness :
    (workInfoOf [⟨⟨some 0⟩, 7, some (.function 1)⟩] 0 = some ⟨⟨some 0⟩, 7, some (.function 1)⟩ ∧
      workInfoOf [⟨⟨some 0⟩, 3, none⟩, ⟨⟨some 1⟩, 7, some (.function 2)⟩] 1 =
        some ⟨⟨some 1⟩, 7, some (.function 2)⟩) ∧
    SleepAsync .posix [⟨⟨some 0⟩, 7, some (.function 1)⟩] 0 =
      some ([.usleep 7000], [⟨⟨some 0⟩, 7, some (.function 1)⟩]) ∧
    (SleepAsync .posix [⟨⟨some 0⟩, 7, some (.function 1)⟩] 0).map Prod.fst =
      (SleepAsync .posix [⟨⟨some 0⟩, 3, none⟩, ⟨⟨some 1⟩, 7, some (.function 2)⟩] 1).map
        Prod.fst :=
  ⟨⟨rfl, rfl⟩,
   (worker_touches_only_duration .posix [⟨⟨some 0⟩, 7, some (.function 1)⟩]
      [⟨⟨some 0⟩, 3, none⟩, ⟨⟨some 1⟩, 7, some (.function 2)⟩] 0 1 _ _ rfl rfl).1,
   (worker_touches_only_duration .posix [⟨⟨some 0⟩, 7, some (.function 1)⟩]
      [⟨⟨some 0⟩, 3, none⟩, ⟨⟨some 1⟩, 7, some (.function 2)⟩] 0 1 _ _ rfl rfl).2.1 rfl⟩

/-- C7, no host blocking.  For every heap and argument list no effect of
`SleepCallbackAsync` is a sleep or a call of a JavaScript function; with valid
arguments its effects are the creation of the descriptor, the reset of the
callback handle and one `uv_queue_work`, in this order; the one effect of
`SleepAsync` is a sleep, and the one effect of `SleepAsyncComplete` is the
call of the callback. -/
theorem no_host_blocking (p : Platform) (heap : Heap) (args : List JsValue) :
    (∀ e ∈ (SleepCallbackAsync heap args).1, e.isSleep = false ∧ e.isCall = false) ∧
    (validArgs args = true →
      (SleepCallbackAsync heap args).1 =
        [.newWorkInfo heap.length, .persistentReset heap.length (argAt args 1),
         .queueWork heap.length .SleepAsync .SleepAsyncComplete]) ∧
    (∀ (req : Nat) (r : List Effect × Heap), SleepAsync p heap req = some r →
      ∃ e, r.1 = [e] ∧ e.isSleep = true ∧ e.isCall = false) ∧
    (∀ (req : Nat) (status : Int) (r : List Effect × Heap),
      SleepAsyncComplete heap req status = some r →
      ∃ e, r.1 = [e] ∧ e.isCall = true ∧ e.isSleep = false) := by
  refine ⟨?_, ?_, ?_, ?_⟩
  · intro e he
    by_cases hv : validArgs args = true
    · rw [SleepCallbackAsync_valid heap args hv] at he
      simp only [List.mem_cons, List.mem_singleton, List.not_mem_nil, or_false] at he
      rcases he with rfl | rfl | rfl <;> exact ⟨rfl, rfl⟩
    · have hv2 : validArgs args = false := by simpa using hv
      rw [SleepCallbackAsync_invalid heap args hv2] at he
      simp only [List.mem_singleton] at he
      subst he
      split_ifs <;> exact ⟨rfl, rfl⟩
  · intro hv
    rw [SleepCallbackAsync_valid heap args hv]
  · intro req r hr
    unfold SleepAsync at hr
    cases hw : workInfoOf heap req with
    | none => simp [hw] at hr
    | some info =>
      simp only [hw, Option.some.injEq] at hr
      subst hr
      exact ⟨_, rfl, by cases p <;> rfl, by cases p <;> rfl⟩
  · intro req status r hr
    unfold SleepAsyncComplete at hr
    cases hw : workInfoOf heap req with
    | none => simp [hw] at hr
    | some info =>
      cases hcb : info.jsCallback with
      | none => simp [hw, hcb] at hr
      | some cb =>
        simp only [hw, hcb, Option.some.injEq] at hr
        subst hr
        exact ⟨_, rfl, rfl, rfl⟩

/-- Witness of C7 at `sleepCallbackAsync(50, f1)` on the empty heap. -/
theorem no_host_blocking_witness :
    validArgs [.int 50, .function 1] = true ∧
    (SleepCallbackAsync [] [.int 50, .function 1]).1 =
      [.newWorkInfo 0, .persistentReset 0 (.function 1),
       .queueWork 0 .SleepAsync .SleepAsyncComplete] :=
  ⟨rfl, (no_host_blocking .posix [] [.int 50, .function 1]).2.1 rfl⟩

/-- C9 as stated fails: run with the status of a cancelled request
(`UV_ECANCELED`, -125), `SleepAsyncComplete` calls the callback all the same,
and the descriptor is still live afterwards. -/
theorem teardown_counterexample :
    SleepAsyncComplete [⟨⟨some 0⟩, 5, some (.function 1)⟩] 0 (-125) =
      some ([.call (.function 1) .null 0], [⟨⟨some 0⟩, 5, some (.function 1)⟩]) ∧
    (Effect.call (.function 1) .null 0).isCall = true ∧
    liveDescriptors [⟨⟨some 0⟩, 5, some (.function 1)⟩] = [0] :=
  ⟨rfl, rfl, rfl⟩

/-- C9 amended: `SleepAsyncComplete` does not look at the completion status
and releases nothing.  For a request that leads to a descriptor: if the
handle holds a function, that function is called once, with no argument and
a null receiver, whatever the status, and the heap is returned as it was; if
the handle is empty no call is made; the result is the same for any two
status values; and whenever a call is made the handle holds the function
called. -/
theorem completion_ignores_status (heap : Heap) (req : Nat) (status : Int) (info : WorkInfo)
    (h : workInfoOf heap req = some info) :
    (∀ f, info.jsCallback = some f →
      SleepAsyncComplete heap req status = some ([.call f .null 0], heap)) ∧
    (info.jsCallback = none → SleepAsyncComplete heap req status = none) ∧
    (∀ status2 : Int, SleepAsyncComplete heap req status2 = SleepAsyncComplete heap req status) ∧
    (∀ r : List Effect × Heap, SleepAsyncComplete heap req status = some r →
      r.2 = heap ∧ ∃ f, info.jsCallback = some f ∧ r.1 = [.call f .null 0]) := by
  refine ⟨?_, ?_, ?_, ?_⟩
  · intro f hf
    simp [SleepAsyncComplete, h, hf]
  · intro hf
    simp [SleepAsyncComplete, h, hf]
  · intro status2
    simp [SleepAsyncComplete]
  · intro r hr
    cases hcb : info.jsCallback with
    | none => simp [SleepAsyncComplete, h, hcb] at hr
    | some f =>
      simp only [SleepAsyncComplete, h, hcb, Option.some.injEq] at hr
      subst hr
      exact ⟨rfl, f, rfl, rfl⟩

/-- Witness of the amended C9: a live descriptor and the status of a
cancelled request. -/
theorem completion_ignores_status_witness :
    workInfoOf [⟨⟨some 0⟩, 5, some (.function 1)⟩] 0 = some ⟨⟨some 0⟩, 5, some (.function 1)⟩ ∧
    SleepAsyncComplete [⟨⟨some 0⟩, 5, some (.function 1)⟩] 0 (-125) =
      some ([.call (.function 1) .null 0], [⟨⟨some 0⟩, 5, some (.function 1)⟩]) :=
  ⟨rfl,
   (completion_ignores_status [⟨⟨some 0⟩, 5, some (.function 1)⟩] 0 (-125) _ rfl).1
     (.function 1) rfl⟩

/-- The argument of the sleep of the source: under `_WIN32` the milliseconds
asked for are passed as they are; otherwise the microseconds passed are the
exact product as long as it fits in 32 bits, and fewer beyond. -/
theorem blockingSleep_exact (d : Nat) :
    blockingSleep .win32 d = .Sleep d ∧
    (d ≤ 4294967 → blockingSleep .posix d = .usleep (d * 1000)) ∧
    (4294967 < d → ∀ n, blockingSleep .posix d = .usleep n → n < d * 1000) := by
  refine ⟨rfl, ?_, ?_⟩
  · intro h
    simp only [blockingSleep, Effect.usleep.injEq]
    apply Nat.mod_eq_of_lt
    omega
  · intro h n hn
    simp only [blockingSleep, Effect.usleep.injEq] at hn
    have : d * 1000 % 2 ^ 32 < 2 ^ 32 := Nat.mod_lt _ (by norm_num)
    omega

/-- C4 at the failing input: `sleepCallbackAsync(4294968, f1)` is accepted and
leaves a descriptor with `sleepTime` 4294968; on the path without `_WIN32`,
`SleepAsync` on its request calls `usleep(704)`, and 704 microseconds are not
4294968 milliseconds. -/
theorem SleepAsync_usleep_wraps :
    validArgs [.int 4294968, .function 1] = true ∧
    (SleepCallbackAsync [] [.int 4294968, .function 1]).2 =
      [⟨⟨some 0⟩, 4294968, some (.function 1)⟩] ∧
    SleepAsync .posix [⟨⟨some 0⟩, 4294968, some (.function 1)⟩] 0 =
      some ([.usleep 704], [⟨⟨some 0⟩, 4294968, some (.function 1)⟩]) ∧
    (704 : Nat) ≠ 4294968 * 1000 :=
  ⟨rfl, rfl, rfl, by decide⟩

/-- The synchronous variant against the asynchronous one: it rejects the same
argument lists with the same exception and nothing else; otherwise its
effects are the sleep of the source for the first argument and then one call
of the second argument, with no argument and a null receiver. -/
theorem SleepCallback_cases (p : Platform) (heap : Heap) (args : List JsValue) :
    (validArgs args = false →
      SleepCallback p args = (SleepCallbackAsync heap args).1 ∧
      ∀ e ∈ SleepCallback p args, e.isThrow = true ∧ e.isSleep = false ∧ e.isCall = false) ∧
    (validArgs args = true →
      SleepCallback p args =
        [blockingSleep p (Uint32Value (argAt args 0)), .call (argAt args 1) .null 0] ∧
      ∀ e ∈ SleepCallback p args, e.isThrow = false ∧ e.isQueueWork = false) := by
  constructor
  · intro hv
    have hasync := SleepCallbackAsync_invalid heap args hv
    have hsync : SleepCallback p args =
        [if args.length < 2 then .throwError msgArgCount
          else if IsUint32 (argAt args 0) = false then .throwTypeError msgFirstArg
          else .throwTypeError msgSecondArg] := by
      rcases (validArgs_false_iff args).1 hv with h | h | h
      · simp [SleepCallback, h]
      · by_cases h1 : args.length < 2
        · simp [SleepCallback, h1]
        · simp [SleepCallback, h1, h]
      · by_cases h1 : args.length < 2
        · simp [SleepCallback, h1]
        · by_cases h2 : IsUint32 (argAt args 0) = true
          · simp [SleepCallback, h1, h2, h]
          · simp [SleepCallback, h1, h2]
    refine ⟨by rw [hsync, hasync], ?_⟩
    intro e he
    rw [hsync] at he
    simp only [List.mem_singleton] at he
    subst he
    split_ifs <;> exact ⟨rfl, rfl, rfl⟩
  · intro hv
    have hv2 := hv
    simp only [validArgs, Bool.and_eq_true, decide_eq_true_eq] at hv2
    obtain ⟨⟨h1, h2⟩, h3⟩ := hv2
    have h1n : ¬ args.length < 2 := by omega
    have hs : SleepCallback p args =
        [blockingSleep p (Uint32Value (argAt args 0)), .call (argAt args 1) .null 0] := by
      simp [SleepCallback, h1n, h2, h3]
    refine ⟨hs, ?_⟩
    intro e he
    rw [hs] at he
    simp only [List.mem_cons, List.mem_singleton, List.not_mem_nil, or_false] at he
    rcases he with rfl | rfl
    · cases p <;> exact ⟨rfl, rfl⟩
    · exact ⟨rfl, rfl⟩

/-- C10 at the failing input: on the path without `_WIN32`,
`sleepCallback(4294968, f1)` is accepted, calls `usleep(704)` and then the
callback once; 704 microseconds are not 4294968 milliseconds. -/
theorem SleepCallback_usleep_wraps :
    validArgs [.int 4294968, .function 1] = true ∧
    SleepCallback .posix [.int 4294968, .function 1] =
      [.usleep 704, .call (.function 1) .null 0] ∧
    (704 : Nat) ≠ 4294968 * 1000 :=
  ⟨rfl, rfl, by decide⟩

end node_cpp_tutorial
